import Mathlib

/-!
# Verification of the shortcraft-zip archive service

A shallow embedding of the ZIP-assembly service (`src/server.js` and its
variants `src/unnamed/part_001`, `src/unnamed/part_002`) together with
proofs about the embedded definitions.

The service receives `{zip_name, files, options}`; for each file it
downloads the source (with retries in the main variant) and appends it to a
ZIP archive under a sanitized entry name.  The embedding models:

* the name sanitizer `sanitize` of `server.js` / `part_002`
  (`name.replace(/[\\/:*?"<>|]/g, "_").replace(/\s+/g, " ").trim()`) and the
  underscore variant of `part_001`
  (`name.replace(/[\\/:*?"<>|]/g, "_").replace(/\s+/g, "_")`);
* the retry loop (`maxRetry = 3`) with its backoff sleeps
  (`setTimeout(r, 2000 * attempt)`);
* the `/api/create-zip` request handler of `server.js`: input validation,
  per-entry processing under `pLimit(1)` (hence sequential, in entry
  order), the `allowPartial` policy, the failure list, and the delivery /
  abort paths;
* the option parsing (`options?.allowPartial !== false`,
  `Math.max(1, Math.min(options?.parallel || 4, 6))`).

Network results are abstracted by an oracle `attempts : Nat → Option String`
per file: `attempts k = none` means the download on attempt `k` succeeds,
`attempts k = some reason` means it fails with message `reason`.
-/

/-! ## Characters

The character classes used by the two regular expressions in `sanitize`. -/

/-- The filesystem-hostile characters of the regex `[\\/:*?"<>|]`. -/
def isHostile (c : Char) : Bool :=
  c == '\\' || c == '/' || c == ':' || c == '*' || c == '?' ||
  c == '"' || c == '<' || c == '>' || c == '|'

/-- JavaScript's `\s` character class (also the set that
`String.prototype.trim` removes): tab, LF, VT, FF, CR, space, NBSP, the
Unicode space separators, the line separators, and the BOM. -/
def isJsSpace (c : Char) : Bool :=
  let n := c.toNat
  n == 0x09 || n == 0x0a || n == 0x0b || n == 0x0c || n == 0x0d ||
  n == 0x20 || n == 0xa0 || n == 0x1680 ||
  (0x2000 <= n && n <= 0x200a) ||
  n == 0x2028 || n == 0x2029 || n == 0x202f || n == 0x205f ||
  n == 0x3000 || n == 0xfeff

/-! ## The name sanitizer (`server.js` line 25, `part_002` line 21)

`name.replace(/[\\/:*?"<>|]/g, "_").replace(/\s+/g, " ").trim()`
modelled on `List Char`. -/

/-- `replace(/[\\/:*?"<>|]/g, "_")`: each hostile character becomes `'_'`. -/
def replaceHostile (l : List Char) : List Char :=
  l.map fun c => if isHostile c then '_' else c

/-- `replace(/\s+/g, " ")`: every maximal run of whitespace becomes one
space.  The flag records whether the previous character was part of a
whitespace run (so the run emits only one `' '`). -/
def collapseWS : Bool → List Char → List Char
  | _, [] => []
  | inRun, c :: cs =>
    if isJsSpace c then
      if inRun then collapseWS true cs else ' ' :: collapseWS true cs
    else c :: collapseWS false cs

/-- Leading-whitespace removal (half of `String.prototype.trim`). -/
def trimLeft (l : List Char) : List Char := l.dropWhile isJsSpace

/-- Trailing-whitespace removal (the other half of `trim`). -/
def trimRight (l : List Char) : List Char :=
  (l.reverse.dropWhile isJsSpace).reverse

/-- `String.prototype.trim`. -/
def trimWS (l : List Char) : List Char := trimRight (trimLeft l)

/-- The sanitizer of `server.js` on character lists. -/
def sanitizeL (l : List Char) : List Char :=
  trimWS (collapseWS false (replaceHostile l))

/-- `const sanitize = (name) => name.replace(/[\\/:*?"<>|]/g, "_")
.replace(/\s+/g, " ").trim();` (`server.js` line 25). -/
def sanitize (s : String) : String := String.mk (sanitizeL s.data)

/-- `replace(/\s+/g, "_")` of the `part_001` variant: every maximal run of
whitespace becomes one underscore. -/
def collapseU : Bool → List Char → List Char
  | _, [] => []
  | inRun, c :: cs =>
    if isJsSpace c then
      if inRun then collapseU true cs else '_' :: collapseU true cs
    else c :: collapseU false cs

/-- The `part_001` sanitizer on character lists (no `trim`). -/
def sanitizeUL (l : List Char) : List Char :=
  collapseU false (replaceHostile l)

/-- `const sanitize = (name = "file") => name.replace(/[\\/:*?"<>|]/g, "_")
.replace(/\s+/g, "_");` (`part_001` line 29, underscore variant). -/
def sanitizeU (s : String) : String := String.mk (sanitizeUL s.data)

/-! ## Safety predicates

A characterisation of the sanitizer's image: no hostile characters, every
whitespace character is a lone `' '`, and no whitespace at either end.
These drive the idempotence proof. -/

/-- The head (if any) is not whitespace. -/
def headOK : List Char → Bool
  | [] => true
  | c :: _ => !isJsSpace c

/-- Every whitespace character is exactly `' '` and is not followed by
another whitespace character. -/
def collapsedOK : List Char → Bool
  | [] => true
  | c :: cs => (if isJsSpace c then c == ' ' && headOK cs else true) && collapsedOK cs

/-- All characters of the sanitizer's output, as a boolean predicate. -/
def allNotHostile (l : List Char) : Bool := l.all fun c => !isHostile c

/-- A list is safe when it has no hostile character, collapsed whitespace,
and no whitespace at either end — the invariant of the sanitizer's image. -/
def safeName (l : List Char) : Bool :=
  allNotHostile l && collapsedOK l && headOK l && headOK l.reverse

/-! ## Request options

`options` is a JSON object (or absent).  `JSValue` models the JSON values a
field can hold, enough to decide JavaScript's strict comparison `!== false`
and truthiness. -/

/-- A JSON field value (or `undefined` for an absent field). -/
inductive JSValue where
  | undefined
  | null
  | bool (b : Bool)
  | num (n : Int)
  | str (s : String)
  deriving DecidableEq, Repr

/-- The `options` object of a request: the fields the variants read.
`parallel` (read only by `part_002`) is kept as an optional integer; the
service is only ever called with numeric or absent `parallel`. -/
structure JobOptions where
  allowPartial : JSValue
  parallel : Option Int
  deriving DecidableEq, Repr

/-- `const allowPartial = options?.allowPartial !== false;`
(`server.js` line 55, `part_002` line 47).  `options?.` yields `undefined`
when `options` is absent, and `!==` is strict: only the boolean literal
`false` disables partial mode. -/
def effAllowPartial (options : Option JobOptions) : Bool :=
  match options with
  | none => true
  | some o => !(o.allowPartial == JSValue.bool false)

/-- `const limit = pLimit(1);` (`server.js` line 56): the concurrency the
main variant passes to `p-limit`, a literal independent of the request. -/
def serverConcurrency : Nat := 1

/-- `options?.parallel || 4` (`part_002` line 48): JavaScript `||` falls
through on falsy values, so an absent `parallel` and the number `0` both
yield the default `4`. -/
def jsParallelOr4 : Option Int → Int
  | none => 4
  | some v => if v = 0 then 4 else v

/-- `const parallel = Math.max(1, Math.min(options?.parallel || 4, 6));`
(`part_002` line 48): the concurrency the parallel variant passes to
`p-limit`. -/
def parallelCap (parallel : Option Int) : Int :=
  max 1 (min (jsParallelOr4 parallel) 6)

/-- Modelled from the spec: "concurrency: integer (default 4, clamped to
[1,6])" — the cap the claim asserts, for comparison with what the code
computes (`serverConcurrency`, `parallelCap`). -/
def specConcurrency : Option Int → Int
  | none => 4
  | some v => max 1 (min v 6)

/-! ## Entry names -/

/-- The template literal `` `video_${idx + 1}.bin` `` used as the default
entry name (`server.js` line 78, `part_002` line 93). -/
def defaultName (idx : Nat) : String :=
  "video_" ++ toString (idx + 1) ++ ".bin"

/-- `f.zip_path || defaultName`: the raw name before sanitization.  A
`zip_path` that is absent (`none`) or the empty string (both falsy) falls
through to the default. -/
def effectiveRawName (zipPath : Option String) (idx : Nat) : String :=
  match zipPath with
  | none => defaultName idx
  | some s => if s = "" then defaultName idx else s

/-- `const zipEntryName = sanitize(f.zip_path || ...)` (`server.js`
line 78): the fallback is applied before sanitization. -/
def serverEntryName (zipPath : Option String) (idx : Nat) : String :=
  sanitize (effectiveRawName zipPath idx)

/-- `const zipPath = sanitize(zipPathRaw) || `video_${i + 1}.bin`;`
(`part_002` lines 93-94): the parallel variant applies a second fallback
after sanitization. -/
def p2EntryName (zipPath : Option String) (idx : Nat) : String :=
  let s := sanitize (effectiveRawName zipPath idx)
  if s = "" then defaultName idx else s

/-! ## The retry loop (`server.js` lines 85-106) -/

/-- `const maxRetry = 3;` (`server.js` line 85). -/
def maxRetry : Nat := 3

/-- The backoff sleep the main variant inserts after a failed attempt that
is not the last: `setTimeout(r, 2000 * attempt)` (`server.js` line 103). -/
def backoffDelay (attempt : Nat) : Nat := 2000 * attempt

/-- The retry loop's terminal result: `none` when some attempt in
`attempt, attempt+1, …` (with `fuel` attempts remaining) succeeds, and
`some reason` (the last attempt's message) when all remaining attempts
fail.  Mirrors `for (let attempt = 1; attempt <= maxRetry; attempt++)`
with `attempts` the download oracle. -/
def runRetries (attempts : Nat → Option String) : Nat → Nat → Option String
  | _, 0 => none
  | attempt, 1 => attempts attempt
  | attempt, fuel + 2 =>
    match attempts attempt with
    | none => none
    | some _ => runRetries attempts (attempt + 1) (fuel + 1)

/-- The number of download attempts the retry loop performs (it stops at
the first success). -/
def attemptsUsed (attempts : Nat → Option String) : Nat → Nat → Nat
  | _, 0 => 0
  | attempt, fuel + 1 =>
    match attempts attempt with
    | none => 1
    | some _ => 1 + attemptsUsed attempts (attempt + 1) fuel

/-- The backoff sleeps the retry loop actually performs, in order: one
after each failed attempt except the last possible one (`server.js`
lines 102-104). -/
def retryDelays (attempts : Nat → Option String) : Nat → Nat → List Nat
  | _, 0 => []
  | _, 1 => []
  | attempt, fuel + 2 =>
    match attempts attempt with
    | none => []
    | some _ => backoffDelay attempt :: retryDelays attempts (attempt + 1) (fuel + 1)

/-! ## The `/api/create-zip` handler of `server.js` (lines 48-145)

`pLimit(1)` makes the per-file tasks run one at a time in submission
order, so the job is a sequential fold over `files`.  Each file is
described by its requested `zip_path` and its download oracle. -/

/-- One element of the request's `files` array. -/
structure FileSpec where
  zip_path : Option String
  attempts : Nat → Option String

/-- An entry of the produced ZIP archive: a registered real file
(`archive.file(tempFile, { name })`) or an appended diagnostic text
(`archive.append("Error downloading …", { name: `…error.txt` })`). -/
inductive ZipEntry where
  | file (name : String)
  | errorText (name : String) (content : String)
  deriving DecidableEq, Repr

/-- The archive-entry name of a `ZipEntry`. -/
def zipEntryName : ZipEntry → String
  | .file n => n
  | .errorText n _ => n

/-- What the per-file loop produced: the archive entries (in registration
order), the `failed` records `{zip_path, reason}` (in push order), the
reason of the first `throw` when `allowPartial` is off (which makes
`Promise.all` reject), and counts of created temp files and issued
download attempts. -/
structure ProcRes where
  archive : List ZipEntry
  failed : List (String × String)
  abortReason : Option String
  tempCount : Nat
  fetchCount : Nat
  deriving Repr

/-- The sequential per-file loop of `server.js` (lines 75-109), starting at
entry index `idx`.  On retry exhaustion the failure is recorded; with
`allowPartial` an `.error.txt` placeholder is appended, otherwise the task
throws and the loop is abandoned (tasks queued after the throw are not
modelled: their effects are discarded with the rejected `Promise.all`). -/
def processFiles (allowPartial : Bool) : Nat → List FileSpec → ProcRes
  | _, [] => ⟨[], [], none, 0, 0⟩
  | idx, f :: rest =>
    let nm := serverEntryName f.zip_path idx
    let used := attemptsUsed f.attempts 1 maxRetry
    match runRetries f.attempts 1 maxRetry with
    | none =>
      let pr := processFiles allowPartial (idx + 1) rest
      ⟨.file nm :: pr.archive, pr.failed, pr.abortReason,
        pr.tempCount + 1, pr.fetchCount + used⟩
    | some reason =>
      if allowPartial then
        let pr := processFiles allowPartial (idx + 1) rest
        ⟨.errorText (nm ++ ".error.txt")
            ("Error downloading " ++ nm ++ ": " ++ reason) :: pr.archive,
          (nm, reason) :: pr.failed, pr.abortReason,
          pr.tempCount + 1, pr.fetchCount + used⟩
      else
        ⟨[], [(nm, reason)], some reason, 1, used⟩

/-- The observable result of one `/api/create-zip` request to `server.js`:
the HTTP status, the 400 JSON body (`{status, reason}`) when the request is
rejected, the status string of the completion log (`"completed"` or
`"partial_failed"`), the delivered archive's entries (`none` when no
archive is delivered), the `failed` records, the fatal error of the catch
path, whether `archive.finalize()` ran, and which resources were created
and released. -/
structure ZipResponse where
  httpStatus : Nat
  rejectBody : Option (String × String)
  statusLog : Option String
  archive : Option (List ZipEntry)
  failed : List (String × String)
  fatalReason : Option String
  finalized : Bool
  writerCreated : Bool
  zipFileCreated : Bool
  zipFileDeleted : Bool
  tempFilesCreated : Nat
  fetchAttempts : Nat
  deriving Repr

/-- `app.post("/api/create-zip", …)` of `server.js` (lines 48-145).
`files = none` models a body whose `files` is not an array.  The guard
(lines 50-52) rejects with 400 before the archiver, the temp paths or any
download exist.  Otherwise the loop runs; if it aborts, the catch path
(lines 132-137) answers 500 and unlinks the staged zip without finalizing;
else the archive is finalized and streamed, and the zip file is unlinked
once the response closes. -/
def createZip (files : Option (List FileSpec)) (options : Option JobOptions) :
    ZipResponse :=
  match files with
  | none =>
    ⟨400, some ("failed", "no_files"), none, none, [], none,
      false, false, false, false, 0, 0⟩
  | some fs =>
    if fs.length = 0 then
      ⟨400, some ("failed", "no_files"), none, none, [], none,
        false, false, false, false, 0, 0⟩
    else
      let pr := processFiles (effAllowPartial options) 0 fs
      match pr.abortReason with
      | some reason =>
        ⟨500, none, none, none, pr.failed, some reason,
          false, true, true, true, pr.tempCount, pr.fetchCount⟩
      | none =>
        ⟨200, none,
          some (if pr.failed.isEmpty then "completed" else "partial_failed"),
          some pr.archive, pr.failed, none,
          true, true, true, true, pr.tempCount, pr.fetchCount⟩

/-! ## The `/api/create-zip` handler of `part_002` (lines 39-135)

The parallel variant: same guard and `allowPartial` parsing, a clamped
`parallel` cap, one fetch per file (no retry), no placeholder entries.
The loop `await`s each `limit(...)` call, so it too is sequential. -/

/-- One element of the `files` array as `part_002` reads it: the requested
name, whether `f.url` is falsy, and the fetch oracle (`none` = the download
streams into the archive, `some reason` = the fetch throws `reason`). -/
structure P2File where
  zip_path : Option String
  urlFalsy : Bool
  fetch : Option String

/-- What the `part_002` loop produced: appended entry names, `failed`
records, the reason of the first uncaught `throw` (when `allowPartial` is
off), and the number of fetches issued. -/
structure P2Res where
  archive : List String
  failed : List (String × String)
  abortReason : Option String
  fetchCount : Nat
  deriving Repr

/-- The sequential per-file loop of `part_002` (lines 90-122).  A missing
`url` throws `"missing_url"` before any fetch; a failed entry is recorded
and simply skipped when `allowPartial` holds (no placeholder entry in this
variant). -/
def p2Process (allowPartial : Bool) : Nat → List P2File → P2Res
  | _, [] => ⟨[], [], none, 0⟩
  | i, f :: rest =>
    let nm := p2EntryName f.zip_path i
    if f.urlFalsy then
      if allowPartial then
        let pr := p2Process allowPartial (i + 1) rest
        ⟨pr.archive, (nm, "missing_url") :: pr.failed, pr.abortReason, pr.fetchCount⟩
      else ⟨[], [(nm, "missing_url")], some "missing_url", 0⟩
    else
      match f.fetch with
      | none =>
        let pr := p2Process allowPartial (i + 1) rest
        ⟨nm :: pr.archive, pr.failed, pr.abortReason, pr.fetchCount + 1⟩
      | some reason =>
        if allowPartial then
          let pr := p2Process allowPartial (i + 1) rest
          ⟨pr.archive, (nm, reason) :: pr.failed, pr.abortReason, pr.fetchCount + 1⟩
        else ⟨[], [(nm, reason)], some reason, 1⟩

/-- The observable result of one request to `part_002`'s handler. -/
structure P2Response where
  httpStatus : Nat
  rejectBody : Option (String × String)
  statusLog : Option String
  archive : Option (List String)
  failed : List (String × String)
  fatalReason : Option String
  writerCreated : Bool
  concurrency : Option Int
  fetchAttempts : Nat
  deriving Repr

/-- `app.post("/api/create-zip", …)` of `part_002` (lines 39-135).  The
guard (lines 42-44) rejects with the same 400 JSON before the archiver
exists or any fetch is issued. -/
def p2CreateZip (files : Option (List P2File)) (options : Option JobOptions) :
    P2Response :=
  match files with
  | none => ⟨400, some ("failed", "no_files"), none, none, [], none, false, none, 0⟩
  | some fs =>
    if fs.length = 0 then
      ⟨400, some ("failed", "no_files"), none, none, [], none, false, none, 0⟩
    else
      let pr := p2Process (effAllowPartial options) 0 fs
      match pr.abortReason with
      | some reason =>
        ⟨200, none, none, none, pr.failed, some reason, true,
          some (parallelCap ((options.map JobOptions.parallel).join)),
          pr.fetchCount⟩
      | none =>
        ⟨200, none,
          some (if pr.failed.isEmpty then "completed" else "partial_failed"),
          some pr.archive, pr.failed, none, true,
          some (parallelCap ((options.map JobOptions.parallel).join)),
          pr.fetchCount⟩

/-! ## Lemmas about the character classes -/

/-- A whitespace character is never one of the nine hostile characters. -/
theorem not_hostile_of_space {c : Char} (h : isJsSpace c = true) :
    isHostile c = false := by
  by_contra hh
  rw [Bool.not_eq_false] at hh
  simp only [isHostile, Bool.or_eq_true, beq_iff_eq] at hh
  rcases hh with ((((((((hh | hh) | hh) | hh) | hh) | hh) | hh) | hh) | hh) <;>
    subst hh <;> revert h <;> decide

/-! ## Membership in the sanitizer's stages -/

/-- Characters surviving `replaceHostile` are never hostile. -/
theorem not_hostile_of_mem_replaceHostile {c : Char} {l : List Char}
    (h : c ∈ replaceHostile l) : isHostile c = false := by
  obtain ⟨a, -, rfl⟩ := List.mem_map.mp h
  by_cases ha : isHostile a = true
  · simp only [ha, if_true]
    decide
  · simp only [Bool.not_eq_true] at ha
    simp [ha]

/-- Characters of `collapseWS` output are the space it inserts or
non-whitespace characters of the input. -/
theorem mem_collapseWS {c : Char} :
    ∀ {b : Bool} {l : List Char}, c ∈ collapseWS b l →
      c = ' ' ∨ (c ∈ l ∧ isJsSpace c = false) := by
  intro b l
  induction l generalizing b with
  | nil => intro h; simp [collapseWS] at h
  | cons a l ih =>
    intro h
    by_cases ha : isJsSpace a = true
    · simp only [collapseWS, ha, if_true] at h
      rcases b with _ | _
      · simp only [Bool.false_eq_true, if_false, List.mem_cons] at h
        rcases h with rfl | h
        · exact Or.inl rfl
        · rcases ih h with h | ⟨hm, hs⟩
          · exact Or.inl h
          · exact Or.inr ⟨List.mem_cons_of_mem _ hm, hs⟩
      · simp only [if_true] at h
        rcases ih h with h | ⟨hm, hs⟩
        · exact Or.inl h
        · exact Or.inr ⟨List.mem_cons_of_mem _ hm, hs⟩
    · simp only [Bool.not_eq_true] at ha
      simp only [collapseWS, ha, Bool.false_eq_true, if_false, List.mem_cons] at h
      rcases h with rfl | h
      · exact Or.inr ⟨List.mem_cons_self _ _, ha⟩
      · rcases ih h with h | ⟨hm, hs⟩
        · exact Or.inl h
        · exact Or.inr ⟨List.mem_cons_of_mem _ hm, hs⟩

/-- `trimWS` only removes characters. -/
theorem mem_of_mem_trimWS {c : Char} {l : List Char} (h : c ∈ trimWS l) :
    c ∈ l := by
  unfold trimWS trimRight trimLeft at h
  rw [List.mem_reverse] at h
  have h' := (List.dropWhile_sublist isJsSpace).subset h
  rw [List.mem_reverse] at h'
  exact (List.dropWhile_sublist isJsSpace).subset h'

/-- No character of the sanitizer's output is hostile. -/
theorem not_hostile_of_mem_sanitizeL {c : Char} {l : List Char}
    (h : c ∈ sanitizeL l) : isHostile c = false := by
  rcases mem_collapseWS (mem_of_mem_trimWS h) with rfl | ⟨hm, -⟩
  · decide
  · exact not_hostile_of_mem_replaceHostile hm

/-! ## The sanitizer fixes already-safe lists -/

/-- `replaceHostile` is the identity on hostile-free lists. -/
theorem replaceHostile_id {l : List Char} (h : ∀ c ∈ l, isHostile c = false) :
    replaceHostile l = l := by
  induction l with
  | nil => rfl
  | cons a l ih =>
    have ha := h a (List.mem_cons_self _ _)
    simp only [replaceHostile, List.map_cons, ha, Bool.false_eq_true, if_false]
    exact congrArg _ (ih fun c hc => h c (List.mem_cons_of_mem _ hc))

/-- On a list whose whitespace is already collapsed, `collapseWS` is the
identity (in the run state too, provided the head is not whitespace). -/
theorem collapseWS_id {l : List Char} (h : collapsedOK l = true) :
    collapseWS false l = l ∧ (headOK l = true → collapseWS true l = l) := by
  induction l with
  | nil => exact ⟨rfl, fun _ => rfl⟩
  | cons a l ih =>
    simp only [collapsedOK, Bool.and_eq_true] at h
    obtain ⟨ha, hl⟩ := h
    by_cases hs : isJsSpace a = true
    · simp only [hs, if_true, Bool.and_eq_true, beq_iff_eq] at ha
      obtain ⟨rfl, hhead⟩ := ha
      have htail : collapseWS true l = l := by
        cases l with
        | nil => rfl
        | cons b t =>
          simp only [headOK] at hhead
          exact (ih hl).2 (by simpa [headOK] using hhead)
      refine ⟨?_, ?_⟩
      · simp [collapseWS, hs, htail]
      · intro hh
        have hfalse : headOK (' ' :: l) = false := rfl
        rw [hfalse] at hh
        cases hh
    · simp only [Bool.not_eq_true] at hs
      have := (ih hl).1
      constructor
      · simp [collapseWS, hs, this]
      · intro _
        simp [collapseWS, hs, this]

/-- `dropWhile isJsSpace` is the identity when the head is not whitespace. -/
theorem dropWhile_space_id {l : List Char} (h : headOK l = true) :
    l.dropWhile isJsSpace = l := by
  cases l with
  | nil => rfl
  | cons a t =>
    simp only [headOK, Bool.not_eq_true'] at h
    simp [List.dropWhile_cons, h]

/-- `trimWS` is the identity when neither end is whitespace. -/
theorem trimWS_id {l : List Char} (h1 : headOK l = true)
    (h2 : headOK l.reverse = true) : trimWS l = l := by
  unfold trimWS trimRight trimLeft
  rw [dropWhile_space_id h1, dropWhile_space_id h2, List.reverse_reverse]

/-! ## The sanitizer's output is safe -/

/-- In run state the collapser emits nothing until a non-space character,
so its output never starts with whitespace. -/
theorem headOK_collapseWS_true {l : List Char} :
    headOK (collapseWS true l) = true := by
  induction l with
  | nil => rfl
  | cons a t ih =>
    by_cases hs : isJsSpace a = true
    · simpa [collapseWS, hs] using ih
    · simp only [Bool.not_eq_true] at hs
      simp [collapseWS, hs, headOK]

/-- The collapser's output has collapsed whitespace. -/
theorem collapsedOK_collapseWS {l : List Char} :
    ∀ b, collapsedOK (collapseWS b l) = true := by
  induction l with
  | nil => intro b; rfl
  | cons a t ih =>
    intro b
    by_cases hs : isJsSpace a = true
    · cases b with
      | true => simpa [collapseWS, hs] using ih true
      | false =>
        simp only [collapseWS, hs, if_true, Bool.false_eq_true, if_false]
        have h1 : isJsSpace ' ' = true := rfl
        simp only [collapsedOK, h1, if_true, Bool.and_eq_true, beq_iff_eq]
        exact ⟨⟨trivial, headOK_collapseWS_true⟩, ih true⟩
    · simp only [Bool.not_eq_true] at hs
      simp only [collapseWS, hs, Bool.false_eq_true, if_false]
      simp only [collapsedOK, hs, Bool.false_eq_true, if_false, Bool.and_eq_true]
      exact ⟨trivial, ih false⟩

/-- `collapsedOK` restricts to prefixes. -/
theorem collapsedOK_append_left {l₁ l₂ : List Char}
    (h : collapsedOK (l₁ ++ l₂) = true) : collapsedOK l₁ = true := by
  induction l₁ with
  | nil => rfl
  | cons a t ih =>
    simp only [List.cons_append, collapsedOK, Bool.and_eq_true] at h ⊢
    refine ⟨?_, ih h.2⟩
    by_cases hs : isJsSpace a = true
    · simp only [hs, if_true, Bool.and_eq_true] at h ⊢
      refine ⟨h.1.1, ?_⟩
      cases t with
      | nil => rfl
      | cons b t' => simpa [headOK] using h.1.2
    · simp [hs]

/-- `collapsedOK` restricts to suffixes. -/
theorem collapsedOK_append_right {l₁ l₂ : List Char}
    (h : collapsedOK (l₁ ++ l₂) = true) : collapsedOK l₂ = true := by
  induction l₁ with
  | nil => exact h
  | cons a t ih =>
    simp only [List.cons_append, collapsedOK, Bool.and_eq_true] at h
    exact ih h.2

/-- `dropWhile isJsSpace` never leaves leading whitespace. -/
theorem headOK_dropWhile_space {l : List Char} :
    headOK (l.dropWhile isJsSpace) = true := by
  induction l with
  | nil => rfl
  | cons a t ih =>
    by_cases hs : isJsSpace a = true
    · simpa [List.dropWhile_cons, hs] using ih
    · simp only [Bool.not_eq_true] at hs
      simp [List.dropWhile_cons, hs, headOK]

/-- `trimRight` keeps a prefix of its input. -/
theorem trimRight_append (l : List Char) :
    ∃ t, l = trimRight l ++ t := by
  refine ⟨(l.reverse.takeWhile isJsSpace).reverse, ?_⟩
  unfold trimRight
  rw [← List.reverse_append, List.takeWhile_append_dropWhile, List.reverse_reverse]

/-- `headOK` restricts to prefixes. -/
theorem headOK_of_append {m p t : List Char} (hm : headOK m = true)
    (he : m = p ++ t) : headOK p = true := by
  cases p with
  | nil => rfl
  | cons a q => subst he; simpa [headOK, List.cons_append] using hm

/-- `trimWS` output never starts with whitespace. -/
theorem headOK_trimWS {l : List Char} : headOK (trimWS l) = true := by
  obtain ⟨t, ht⟩ := trimRight_append (trimLeft l)
  exact headOK_of_append (headOK_dropWhile_space (l := l)) ht

/-- `trimWS` output never ends with whitespace. -/
theorem lastOK_trimWS {l : List Char} : headOK (trimWS l).reverse = true := by
  unfold trimWS trimRight
  rw [List.reverse_reverse]
  exact headOK_dropWhile_space

/-- `trimWS` preserves collapsed whitespace. -/
theorem collapsedOK_trimWS {l : List Char} (h : collapsedOK l = true) :
    collapsedOK (trimWS l) = true := by
  have h1 : collapsedOK (trimLeft l) = true := by
    have := List.takeWhile_append_dropWhile (p := isJsSpace) (l := l)
    exact collapsedOK_append_right (this ▸ h)
  obtain ⟨t, ht⟩ := trimRight_append (trimLeft l)
  exact collapsedOK_append_left (ht ▸ h1)

/-- The sanitizer always produces a safe list. -/
theorem safeName_sanitizeL (l : List Char) : safeName (sanitizeL l) = true := by
  unfold safeName
  simp only [Bool.and_eq_true]
  refine ⟨⟨⟨?_, ?_⟩, ?_⟩, ?_⟩
  · simp only [allNotHostile, List.all_eq_true]
    intro c hc
    simp [not_hostile_of_mem_sanitizeL hc]
  · unfold sanitizeL
    exact collapsedOK_trimWS (collapsedOK_collapseWS false)
  · exact headOK_trimWS
  · exact lastOK_trimWS

/-- The sanitizer fixes every safe list. -/
theorem sanitizeL_id_of_safe {l : List Char} (h : safeName l = true) :
    sanitizeL l = l := by
  unfold safeName at h
  simp only [Bool.and_eq_true] at h
  obtain ⟨⟨⟨hh, hc⟩, h1⟩, h2⟩ := h
  unfold sanitizeL
  rw [replaceHostile_id, (collapseWS_id hc).1, trimWS_id h1 h2]
  simp only [allNotHostile, List.all_eq_true] at hh
  intro c hcm
  simpa using hh c hcm

/-- Idempotence on character lists. -/
theorem sanitizeL_idem (l : List Char) : sanitizeL (sanitizeL l) = sanitizeL l :=
  sanitizeL_id_of_safe (safeName_sanitizeL l)

/-! ## The underscore variant (`part_001`) -/

/-- Characters of `collapseU` output are the underscore it inserts or
non-whitespace characters of the input; either way, not whitespace. -/
theorem mem_collapseU {c : Char} :
    ∀ {b : Bool} {l : List Char}, c ∈ collapseU b l →
      c = '_' ∨ (c ∈ l ∧ isJsSpace c = false) := by
  intro b l
  induction l generalizing b with
  | nil => intro h; simp [collapseU] at h
  | cons a t ih =>
    intro h
    by_cases ha : isJsSpace a = true
    · simp only [collapseU, ha, if_true] at h
      cases b with
      | true =>
        simp only [if_true] at h
        rcases ih h with h | ⟨hm, hs⟩
        · exact Or.inl h
        · exact Or.inr ⟨List.mem_cons_of_mem _ hm, hs⟩
      | false =>
        simp only [Bool.false_eq_true, if_false, List.mem_cons] at h
        rcases h with rfl | h
        · exact Or.inl rfl
        · rcases ih h with h | ⟨hm, hs⟩
          · exact Or.inl h
          · exact Or.inr ⟨List.mem_cons_of_mem _ hm, hs⟩
    · simp only [Bool.not_eq_true] at ha
      simp only [collapseU, ha, Bool.false_eq_true, if_false, List.mem_cons] at h
      rcases h with rfl | h
      · exact Or.inr ⟨List.mem_cons_self _ _, ha⟩
      · rcases ih h with h | ⟨hm, hs⟩
        · exact Or.inl h
        · exact Or.inr ⟨List.mem_cons_of_mem _ hm, hs⟩

/-- `collapseU` is the identity on whitespace-free lists, in either state. -/
theorem collapseU_id {l : List Char} (h : ∀ c ∈ l, isJsSpace c = false) :
    ∀ b, collapseU b l = l := by
  induction l with
  | nil => intro b; rfl
  | cons a t ih =>
    intro b
    have ha := h a (List.mem_cons_self _ _)
    simp only [collapseU, ha, Bool.false_eq_true, if_false]
    exact congrArg _ (ih (fun c hc => h c (List.mem_cons_of_mem _ hc)) false)

/-- No character of the underscore sanitizer's output is whitespace. -/
theorem not_space_of_mem_sanitizeUL {c : Char} {l : List Char}
    (h : c ∈ sanitizeUL l) : isJsSpace c = false := by
  rcases mem_collapseU h with rfl | ⟨-, hs⟩
  · rfl
  · exact hs

/-- No character of the underscore sanitizer's output is hostile. -/
theorem not_hostile_of_mem_sanitizeUL {c : Char} {l : List Char}
    (h : c ∈ sanitizeUL l) : isHostile c = false := by
  rcases mem_collapseU h with rfl | ⟨hm, -⟩
  · rfl
  · exact not_hostile_of_mem_replaceHostile hm

/-- Idempotence of the underscore variant on character lists. -/
theorem sanitizeUL_idem (l : List Char) :
    sanitizeUL (sanitizeUL l) = sanitizeUL l := by
  show collapseU false (replaceHostile (sanitizeUL l)) = sanitizeUL l
  rw [replaceHostile_id (fun c hc => not_hostile_of_mem_sanitizeUL hc)]
  exact collapseU_id (fun c hc => not_space_of_mem_sanitizeUL hc) false

/-! ## When is the sanitized name empty? -/

/-- On an all-whitespace list the hostile replacement does nothing. -/
theorem replaceHostile_of_all_space {l : List Char}
    (h : ∀ c ∈ l, isJsSpace c = true) : replaceHostile l = l :=
  replaceHostile_id fun c hc => not_hostile_of_space (h c hc)

/-- In run state the collapser swallows an all-whitespace list. -/
theorem collapseWS_true_all_space {l : List Char}
    (h : ∀ c ∈ l, isJsSpace c = true) : collapseWS true l = [] := by
  induction l with
  | nil => rfl
  | cons a t ih =>
    have ha := h a (List.mem_cons_self _ _)
    simp only [collapseWS, ha, if_true]
    exact ih fun c hc => h c (List.mem_cons_of_mem _ hc)

/-- Sanitizing an all-whitespace list gives the empty list. -/
theorem sanitizeL_of_all_space {l : List Char}
    (h : ∀ c ∈ l, isJsSpace c = true) : sanitizeL l = [] := by
  unfold sanitizeL
  rw [replaceHostile_of_all_space h]
  cases l with
  | nil => rfl
  | cons a t =>
    have ha := h a (List.mem_cons_self _ _)
    simp only [collapseWS, ha, if_true, Bool.false_eq_true, if_false]
    rw [collapseWS_true_all_space fun c hc => h c (List.mem_cons_of_mem _ hc)]
    rfl

/-- A non-whitespace character survives the collapser (in either state). -/
theorem mem_collapseWS_of_not_space {c : Char} {l : List Char}
    (hm : c ∈ l) (hs : isJsSpace c = false) : ∀ b, c ∈ collapseWS b l := by
  induction l with
  | nil => cases hm
  | cons a t ih =>
    intro b
    rcases List.mem_cons.mp hm with rfl | hm'
    · simp [collapseWS, hs, List.mem_cons]
    · by_cases ha : isJsSpace a = true
      · cases b with
        | true => simpa [collapseWS, ha] using ih hm' true
        | false =>
          simp only [collapseWS, ha, if_true, Bool.false_eq_true, if_false]
          exact List.mem_cons_of_mem _ (ih hm' true)
      · simp only [Bool.not_eq_true] at ha
        simp only [collapseWS, ha, Bool.false_eq_true, if_false]
        exact List.mem_cons_of_mem _ (ih hm' false)

/-- A non-whitespace character survives `dropWhile isJsSpace`. -/
theorem mem_dropWhile_of_not_space {c : Char} {l : List Char}
    (hm : c ∈ l) (hs : isJsSpace c = false) : c ∈ l.dropWhile isJsSpace := by
  induction l with
  | nil => cases hm
  | cons a t ih =>
    rcases List.mem_cons.mp hm with rfl | hm'
    · simp [List.dropWhile_cons, hs, List.mem_cons]
    · by_cases ha : isJsSpace a = true
      · simpa [List.dropWhile_cons, ha] using ih hm'
      · simp only [Bool.not_eq_true] at ha
        simp only [List.dropWhile_cons, ha, Bool.false_eq_true, if_false]
        exact List.mem_cons_of_mem _ hm'

/-- A non-whitespace character survives `trimWS`. -/
theorem mem_trimWS_of_not_space {c : Char} {l : List Char}
    (hm : c ∈ l) (hs : isJsSpace c = false) : c ∈ trimWS l := by
  unfold trimWS trimRight trimLeft
  rw [List.mem_reverse]
  exact mem_dropWhile_of_not_space
    (List.mem_reverse.mpr (mem_dropWhile_of_not_space hm hs)) hs

/-- A list with a non-whitespace character sanitizes to a nonempty list. -/
theorem sanitizeL_ne_nil {c : Char} {l : List Char}
    (hm : c ∈ l) (hs : isJsSpace c = false) : sanitizeL l ≠ [] := by
  set c' := if isHostile c then '_' else c with hc'
  have hs' : isJsSpace c' = false := by
    rw [hc']; split
    · rfl
    · exact hs
  have h1 : c' ∈ replaceHostile l := by
    rw [hc']
    exact List.mem_map.mpr ⟨c, hm, rfl⟩
  exact List.ne_nil_of_mem
    (mem_trimWS_of_not_space (mem_collapseWS_of_not_space h1 hs' false) hs')

/-- The sanitizer's result is empty exactly on all-whitespace input. -/
theorem sanitize_eq_empty_iff (s : String) :
    sanitize s = "" ↔ s.data.all isJsSpace = true := by
  constructor
  · intro h
    rw [List.all_eq_true]
    intro c hm
    by_contra hc
    have hc2 : isJsSpace c = false := by
      cases h2 : isJsSpace c
      · rfl
      · exact absurd h2 hc
    exact sanitizeL_ne_nil hm hc2
      (show sanitizeL s.data = [] from congrArg String.data h)
  · intro h
    rw [List.all_eq_true] at h
    show String.mk (sanitizeL s.data) = ""
    rw [sanitizeL_of_all_space h]

/-! ## Lemmas about the per-file loop -/

/-- With `allowPartial` the loop never throws: every exhaustion becomes a
placeholder entry. -/
theorem processFiles_true_abort (files : List FileSpec) (idx : Nat) :
    (processFiles true idx files).abortReason = none := by
  induction files generalizing idx with
  | nil => rfl
  | cons f rest ih =>
    cases h : runRetries f.attempts 1 maxRetry with
    | none => simpa [processFiles, h] using ih (idx + 1)
    | some r => simpa [processFiles, h] using ih (idx + 1)

/-- With `allowPartial` every file contributes exactly one archive entry
(the real file or its `.error.txt` placeholder). -/
theorem processFiles_true_length (files : List FileSpec) (idx : Nat) :
    (processFiles true idx files).archive.length = files.length := by
  induction files generalizing idx with
  | nil => rfl
  | cons f rest ih =>
    cases h : runRetries f.attempts 1 maxRetry with
    | none => simpa [processFiles, h] using ih (idx + 1)
    | some r => simpa [processFiles, h] using ih (idx + 1)

/-- With `allowPartial`, a file whose retries are exhausted yields its
`.error.txt` placeholder in the archive and its record in `failed`. -/
theorem processFiles_true_failed_mem (files : List FileSpec) (idx : Nat)
    {i : Nat} {f : FileSpec} {r : String}
    (hi : files.get? i = some f)
    (hr : runRetries f.attempts 1 maxRetry = some r) :
    ZipEntry.errorText (serverEntryName f.zip_path (idx + i) ++ ".error.txt")
        ("Error downloading " ++ serverEntryName f.zip_path (idx + i) ++ ": " ++ r)
      ∈ (processFiles true idx files).archive ∧
    (serverEntryName f.zip_path (idx + i), r)
      ∈ (processFiles true idx files).failed := by
  induction files generalizing idx i with
  | nil => cases hi
  | cons g rest ih =>
    cases i with
    | zero =>
      rw [List.get?_cons_zero] at hi
      cases hi
      simp only [Nat.add_zero]
      constructor
      · simp [processFiles, hr, List.mem_cons]
      · simp [processFiles, hr, List.mem_cons]
    | succ j =>
      rw [List.get?_cons_succ] at hi
      have heq : idx + (j + 1) = (idx + 1) + j := by omega
      rw [heq]
      have hrec := ih (idx + 1) hi
      cases hg : runRetries g.attempts 1 maxRetry with
      | none =>
        constructor
        · simp only [processFiles, hg]
          exact List.mem_cons_of_mem _ hrec.1
        · simp only [processFiles, hg]
          exact hrec.2
      | some rg =>
        constructor
        · simp only [processFiles, hg, if_true]
          exact List.mem_cons_of_mem _ hrec.1
        · simp only [processFiles, hg, if_true]
          exact List.mem_cons_of_mem _ hrec.2

/-- When every file downloads successfully the loop registers, in entry
order, exactly one real entry per file under its sanitized requested name
(no renaming, no suffixing), and records no failure. -/
theorem processFiles_all_success (files : List FileSpec) (idx : Nat) (ap : Bool)
    (hall : ∀ i f, files.get? i = some f →
      runRetries f.attempts 1 maxRetry = none) :
    (processFiles ap idx files).abortReason = none ∧
    (processFiles ap idx files).failed = [] ∧
    (processFiles ap idx files).archive.length = files.length ∧
    ∀ i, (processFiles ap idx files).archive.get? i =
      (files.get? i).map fun f => ZipEntry.file (serverEntryName f.zip_path (idx + i)) := by
  induction files generalizing idx with
  | nil =>
    refine ⟨rfl, rfl, rfl, fun i => ?_⟩
    simp [processFiles]
  | cons g rest ih =>
    have hg : runRetries g.attempts 1 maxRetry = none :=
      hall 0 g List.get?_cons_zero
    have hrec := ih (idx + 1) fun i f hi => hall (i + 1) f (by simpa using hi)
    refine ⟨?_, ?_, ?_, ?_⟩
    · simpa [processFiles, hg] using hrec.1
    · simpa [processFiles, hg] using hrec.2.1
    · simpa [processFiles, hg] using hrec.2.2.1
    · intro i
      cases i with
      | zero => simp [processFiles, hg]
      | succ j =>
        simp only [processFiles, hg, List.get?_cons_succ]
        have := hrec.2.2.2 j
        rw [this]
        have heq : idx + 1 + j = idx + (j + 1) := by omega
        rw [heq]

/-- Without `allowPartial` the loop throws at the first file whose retries
are exhausted, with that file's last failure reason. -/
theorem processFiles_false_abort (files : List FileSpec) (idx : Nat)
    {i : Nat} {f : FileSpec} {r : String}
    (hi : files.get? i = some f)
    (hr : runRetries f.attempts 1 maxRetry = some r)
    (hbefore : ∀ j g, j < i → files.get? j = some g →
      runRetries g.attempts 1 maxRetry = none) :
    (processFiles false idx files).abortReason = some r := by
  induction files generalizing idx i with
  | nil => cases hi
  | cons g rest ih =>
    cases i with
    | zero =>
      rw [List.get?_cons_zero] at hi
      cases hi
      simp [processFiles, hr]
    | succ j =>
      rw [List.get?_cons_succ] at hi
      have hg : runRetries g.attempts 1 maxRetry = none :=
        hbefore 0 g (Nat.succ_pos j) List.get?_cons_zero
      have hrec := ih (idx + 1) hi
        (fun k h hk hkk => hbefore (k + 1) h (by omega) (by simpa using hkk))
      simpa [processFiles, hg] using hrec

/-! ## The default entry name is never empty -/

/-- The default name starts with a `'v'`. -/
theorem mem_v_defaultName (idx : Nat) : 'v' ∈ (defaultName idx).data := by
  unfold defaultName
  rw [String.data_append, String.data_append]
  exact List.mem_append_left _ (List.mem_append_left _ (by decide))

/-- The default name is nonempty. -/
theorem defaultName_ne_empty (idx : Nat) : defaultName idx ≠ "" := by
  intro h
  have hv := mem_v_defaultName idx
  rw [h] at hv
  cases hv

/-- The default name survives sanitization nonempty. -/
theorem sanitize_defaultName_ne_empty (idx : Nat) :
    sanitize (defaultName idx) ≠ "" := by
  intro h
  rw [sanitize_eq_empty_iff, List.all_eq_true] at h
  exact absurd (h 'v' (mem_v_defaultName idx)) (by decide)

/-! ## The claims -/

/-- C6: the Name Sanitizer is idempotent: for every input string, applying
`sanitize` (and the `part_001` underscore variant `sanitizeU`) twice yields
the same result as applying it once. -/
theorem claim_C6_sanitize_idempotent (s : String) :
    sanitize (sanitize s) = sanitize s ∧
    sanitizeU (sanitizeU s) = sanitizeU s :=
  ⟨congrArg String.mk (sanitizeL_idem s.data),
   congrArg String.mk (sanitizeUL_idem s.data)⟩

/-- C7: for every input string the sanitizer's output contains no
path-separator character (`'/'` or `'\\'`) — indeed no character of the
hostile set `\ / : * ? " < > |` survives, each being replaced by `'_'`. -/
theorem claim_C7_no_path_separators (s : String) :
    ((sanitize s).data.all fun c => !isHostile c) = true ∧
    '/' ∉ (sanitize s).data ∧ '\\' ∉ (sanitize s).data := by
  have hmem : ∀ c ∈ (sanitize s).data, isHostile c = false := fun c hc =>
    not_hostile_of_mem_sanitizeL hc
  refine ⟨?_, fun h => ?_, fun h => ?_⟩
  · rw [List.all_eq_true]
    intro c hc
    simp [hmem c hc]
  · exact absurd (hmem '/' h) (by decide)
  · exact absurd (hmem '\\' h) (by decide)

/-- C10: `allow_partial` is decided by a strict comparison with the boolean
literal `false`: partial mode is off exactly when `options.allowPartial` is
the JSON boolean `false`; absent options, `undefined`, `null`, `0`,
`"false"` and `true` all leave it on. -/
theorem claim_C10_strict_false_comparison :
    effAllowPartial none = true ∧
    (∀ o : JobOptions,
      effAllowPartial (some o) = false ↔ o.allowPartial = JSValue.bool false) ∧
    effAllowPartial (some ⟨JSValue.undefined, none⟩) = true ∧
    effAllowPartial (some ⟨JSValue.null, none⟩) = true ∧
    effAllowPartial (some ⟨JSValue.num 0, none⟩) = true ∧
    effAllowPartial (some ⟨JSValue.str "false", none⟩) = true ∧
    effAllowPartial (some ⟨JSValue.bool true, none⟩) = true ∧
    effAllowPartial (some ⟨JSValue.bool false, none⟩) = false := by
  refine ⟨rfl, fun o => ?_, rfl, rfl, rfl, rfl, rfl, rfl⟩
  simp [effAllowPartial]

/-- C4 fails on the code: `server.js` fixes the concurrency at the literal
`1` and reads no option, so a job with absent options runs at cap 1, not
the claimed default 4; and the parallel variant maps a requested `0` to 4
(JavaScript `|| 4` on a falsy number), not to the claimed clamp value 1. -/
theorem claim_C4_counterexample :
    (serverConcurrency : Int) = 1 ∧ specConcurrency none = 4 ∧
    (serverConcurrency : Int) ≠ specConcurrency none ∧
    parallelCap (some 0) = 4 ∧ specConcurrency (some 0) = 1 ∧
    parallelCap (some 0) ≠ specConcurrency (some 0) := by
  refine ⟨rfl, by decide, by decide, by decide, by decide, by decide⟩

/-- C4 (amended): `server.js` always runs at concurrency 1, ignoring the
request; the `part_002` variant computes
`Math.max(1, Math.min(options?.parallel || 4, 6))`, which is 4 when the
option is absent (or falsy, including `0`) and always lies in `[1, 6]`. -/
theorem claim_C4_amended :
    serverConcurrency = 1 ∧
    parallelCap none = 4 ∧
    parallelCap (some 0) = 4 ∧
    ∀ v : Option Int, 1 ≤ parallelCap v ∧ parallelCap v ≤ 6 := by
  refine ⟨rfl, by decide, by decide, fun v => ⟨le_max_left 1 _, ?_⟩⟩
  exact max_le (by norm_num) (min_le_right _ _)

/-- C3: every backoff sleep the retry loop of `server.js` performs — one
after failed attempt `k` for `k < maxRetry` — lasts
`2000 * 2 ^ (k - 1)` milliseconds (the delay list holds the sleep after
attempt `k` at position `k - 1`). -/
theorem claim_C3_exponential_backoff (attempts : Nat → Option String)
    (k : Nat) (_hk : 1 ≤ k) {d : Nat}
    (hd : (retryDelays attempts 1 maxRetry).get? (k - 1) = some d) :
    d = 2000 * 2 ^ (k - 1) := by
  cases h1 : attempts 1 with
  | none => simp [retryDelays, maxRetry, h1] at hd
  | some r1 =>
    cases h2 : attempts 2 with
    | none =>
      rw [show retryDelays attempts 1 maxRetry = [backoffDelay 1] from by
        simp [retryDelays, maxRetry, h1, h2]] at hd
      cases hk1 : k - 1 with
      | zero =>
        rw [hk1, List.get?_cons_zero] at hd
        cases hd
        decide
      | succ m =>
        rw [hk1, List.get?_cons_succ, List.get?_nil] at hd
        cases hd
    | some r2 =>
      rw [show retryDelays attempts 1 maxRetry =
          [backoffDelay 1, backoffDelay 2] from by
        simp [retryDelays, maxRetry, h1, h2]] at hd
      cases hk1 : k - 1 with
      | zero =>
        rw [hk1, List.get?_cons_zero] at hd
        cases hd
        decide
      | succ m =>
        cases m with
        | zero =>
          rw [hk1, List.get?_cons_succ, List.get?_cons_zero] at hd
          cases hd
          decide
        | succ m' =>
          rw [hk1, List.get?_cons_succ, List.get?_cons_succ, List.get?_nil] at hd
          cases hd

/-- C3 witness: with every attempt failing, the sleep between attempt 2
and attempt 3 is 4000 ms `= 2000 * 2^(2-1)`. -/
theorem claim_C3_witness : (4000 : Nat) = 2000 * 2 ^ (2 - 1) :=
  claim_C3_exponential_backoff (fun _ => some "fetch_failed_500") 2
    (by decide) (by decide)

/-- C2 fails on `server.js`: the fallback `video_<idx+1>.bin` is applied
before sanitization and only to falsy raw names, so the whitespace-only
requested name `" "` (truthy in JavaScript) sanitizes to the empty entry
name — no generated fallback replaces it. -/
theorem claim_C2_counterexample :
    serverEntryName (some " ") 0 = "" ∧ defaultName 0 = "video_1.bin" ∧
    ("" : String) ≠ "video_1.bin" := by
  refine ⟨by decide, by decide, by decide⟩

/-- C2 (amended): in `server.js` the fallback is applied before
sanitization: an absent or empty `zip_path` gets the (nonempty) sanitized
default, but a nonempty `zip_path` keeps its sanitized form, which is empty
exactly when the name is whitespace-only.  The `part_002` variant applies a
second fallback after sanitization, so its entry name is never empty and
equals the generated default whenever sanitization yields the empty
string. -/
theorem claim_C2_amended (zipPath : Option String) (idx : Nat) :
    (zipPath = none ∨ zipPath = some "" →
      serverEntryName zipPath idx = sanitize (defaultName idx) ∧
      serverEntryName zipPath idx ≠ "") ∧
    (∀ s, zipPath = some s → s ≠ "" →
      (serverEntryName zipPath idx = "" ↔ s.data.all isJsSpace = true)) ∧
    p2EntryName zipPath idx ≠ "" ∧
    (sanitize (effectiveRawName zipPath idx) = "" →
      p2EntryName zipPath idx = defaultName idx) := by
  refine ⟨?_, ?_, ?_, ?_⟩
  · rintro (rfl | rfl)
    · exact ⟨rfl, sanitize_defaultName_ne_empty idx⟩
    · exact ⟨rfl, sanitize_defaultName_ne_empty idx⟩
  · rintro s rfl hs
    show sanitize (effectiveRawName (some s) idx) = "" ↔ _
    rw [show effectiveRawName (some s) idx = s from by
      simp [effectiveRawName, hs]]
    exact sanitize_eq_empty_iff s
  · unfold p2EntryName
    by_cases h : sanitize (effectiveRawName zipPath idx) = ""
    · simp only [h, if_true]
      exact defaultName_ne_empty idx
    · simp only [h, if_false]
      exact h
  · intro h
    simp [p2EntryName, h]

/-- C2 witness: a name with real content keeps its nonempty sanitized form,
and for the whitespace-only name `" "` the parallel variant falls back to
the generated `video_1.bin`. -/
theorem claim_C2_witness :
    (serverEntryName (some " x ") 0 = "" ↔ " x ".data.all isJsSpace = true) ∧
    p2EntryName (some " ") 0 = defaultName 0 :=
  ⟨(claim_C2_amended (some " x ") 0).2.1 " x " rfl (by decide),
   (claim_C2_amended (some " ") 0).2.2.2 (by decide)⟩

/-- C8: a request whose `files` is not an array or is empty is rejected
with HTTP 400 and body `{status: "failed", reason: "no_files"}` before any
work: no archive writer, no staged zip, no temp file, no download — in both
`server.js` and the `part_002` variant. -/
theorem claim_C8_reject_before_work (options : Option JobOptions) :
    createZip none options =
      ⟨400, some ("failed", "no_files"), none, none, [], none,
        false, false, false, false, 0, 0⟩ ∧
    createZip (some []) options =
      ⟨400, some ("failed", "no_files"), none, none, [], none,
        false, false, false, false, 0, 0⟩ ∧
    p2CreateZip none options =
      ⟨400, some ("failed", "no_files"), none, none, [], none, false, none, 0⟩ ∧
    p2CreateZip (some []) options =
      ⟨400, some ("failed", "no_files"), none, none, [], none, false, none, 0⟩ :=
  ⟨rfl, rfl, rfl, rfl⟩

/-- C1: when partial failures are allowed and some file's retries are
exhausted, `server.js` still delivers (HTTP 200): the archive holds one
entry per requested file (real or placeholder), each failed source
contributes the diagnostic text entry `<entry>.error.txt` whose content
names the reason, the reported status is `partial_failed`, and `failed`
holds a record for the failed entry. -/
theorem claim_C1_partial_failure_placeholders (files : List FileSpec)
    (options : Option JobOptions) {i : Nat} {f : FileSpec} {r : String}
    (hap : effAllowPartial options = true)
    (hi : files.get? i = some f)
    (hr : runRetries f.attempts 1 maxRetry = some r) :
    (createZip (some files) options).httpStatus = 200 ∧
    (createZip (some files) options).statusLog = some "partial_failed" ∧
    (∃ ar, (createZip (some files) options).archive = some ar ∧
      ar.length = files.length ∧
      ZipEntry.errorText (serverEntryName f.zip_path i ++ ".error.txt")
          ("Error downloading " ++ serverEntryName f.zip_path i ++ ": " ++ r)
        ∈ ar) ∧
    (serverEntryName f.zip_path i, r) ∈ (createZip (some files) options).failed := by
  have hlen : ¬ files.length = 0 := by
    rcases List.get?_eq_some.mp hi with ⟨hlt, -⟩
    omega
  have habort := processFiles_true_abort files 0
  have hmem := processFiles_true_failed_mem files 0 hi hr
  rw [Nat.zero_add] at hmem
  have hlength := processFiles_true_length files 0
  have hne : (processFiles true 0 files).failed.isEmpty = false := by
    cases h : (processFiles true 0 files).failed with
    | nil =>
      have := hmem.2
      rw [h] at this
      cases this
    | cons a t => rfl
  simp only [createZip, if_neg hlen, hap, habort, hne,
    Bool.false_eq_true, if_false]
  exact ⟨by simp, by simp, ⟨_, rfl, hlength, hmem.1⟩, hmem.2⟩

/-- C1 witness: a two-file job where the second file always fails delivers
a `partial_failed` archive of two entries containing
`b.mp4.error.txt`, and records the failure. -/
theorem claim_C1_witness :
    (createZip (some [⟨some "a.mp4", fun _ => none⟩,
        ⟨some "b.mp4", fun _ => some "boom"⟩]) none).httpStatus = 200 ∧
    (createZip (some [⟨some "a.mp4", fun _ => none⟩,
        ⟨some "b.mp4", fun _ => some "boom"⟩]) none).statusLog =
      some "partial_failed" ∧
    (∃ ar, (createZip (some [⟨some "a.mp4", fun _ => none⟩,
        ⟨some "b.mp4", fun _ => some "boom"⟩]) none).archive = some ar ∧
      ar.length = 2 ∧
      ZipEntry.errorText (serverEntryName (some "b.mp4") 1 ++ ".error.txt")
          ("Error downloading " ++ serverEntryName (some "b.mp4") 1 ++ ": " ++ "boom")
        ∈ ar) ∧
    (serverEntryName (some "b.mp4") 1, "boom") ∈
      (createZip (some [⟨some "a.mp4", fun _ => none⟩,
        ⟨some "b.mp4", fun _ => some "boom"⟩]) none).failed :=
  claim_C1_partial_failure_placeholders
    [⟨some "a.mp4", fun _ => none⟩, ⟨some "b.mp4", fun _ => some "boom"⟩]
    none (i := 1) rfl rfl rfl

/-- C5: with `allow_partial` off, the first retry-exhausted file makes the
job fail: `server.js` answers 500, delivers no archive, never reaches
`finalize`, unlinks the staged zip file, and the fatal error carries the
first encountered failure reason. -/
theorem claim_C5_fail_fast (files : List FileSpec)
    (options : Option JobOptions) {i : Nat} {f : FileSpec} {r : String}
    (hap : effAllowPartial options = false)
    (hi : files.get? i = some f)
    (hr : runRetries f.attempts 1 maxRetry = some r)
    (hfirst : ∀ j g, j < i → files.get? j = some g →
      runRetries g.attempts 1 maxRetry = none) :
    (createZip (some files) options).httpStatus = 500 ∧
    (createZip (some files) options).archive = none ∧
    (createZip (some files) options).finalized = false ∧
    (createZip (some files) options).zipFileDeleted = true ∧
    (createZip (some files) options).fatalReason = some r := by
  have hlen : ¬ files.length = 0 := by
    rcases List.get?_eq_some.mp hi with ⟨hlt, -⟩
    omega
  have habort := processFiles_false_abort files 0 hi hr hfirst
  simp only [createZip, if_neg hlen, hap, habort]
  exact ⟨by simp, by simp, by simp, by simp, by simp⟩

/-- C5 witness: a single always-failing file with `allowPartial: false`
yields a 500 with no archive, no finalize, a deleted staged zip, and the
failure reason. -/
theorem claim_C5_witness :
    (createZip (some [⟨some "a.mp4", fun _ => some "boom"⟩])
        (some ⟨JSValue.bool false, none⟩)).httpStatus = 500 ∧
    (createZip (some [⟨some "a.mp4", fun _ => some "boom"⟩])
        (some ⟨JSValue.bool false, none⟩)).archive = none ∧
    (createZip (some [⟨some "a.mp4", fun _ => some "boom"⟩])
        (some ⟨JSValue.bool false, none⟩)).finalized = false ∧
    (createZip (some [⟨some "a.mp4", fun _ => some "boom"⟩])
        (some ⟨JSValue.bool false, none⟩)).zipFileDeleted = true ∧
    (createZip (some [⟨some "a.mp4", fun _ => some "boom"⟩])
        (some ⟨JSValue.bool false, none⟩)).fatalReason = some "boom" :=
  claim_C5_fail_fast [⟨some "a.mp4", fun _ => some "boom"⟩]
    (some ⟨JSValue.bool false, none⟩) (i := 0) rfl rfl rfl
    (fun j _g hj _ => absurd hj (Nat.not_lt_zero j))

/-- C9 fails on the code: two requests whose names sanitize to the same
`"a.mp4"` both land in the archive under that identical name — there is no
suffixing or other resolution, so the duplicate entry names are not
distinct. -/
theorem claim_C9_counterexample :
    (createZip (some [⟨some "a.mp4", fun _ => none⟩,
        ⟨some "a.mp4", fun _ => none⟩]) none).archive =
      some [ZipEntry.file "a.mp4", ZipEntry.file "a.mp4"] ∧
    ¬ ([ZipEntry.file "a.mp4", ZipEntry.file "a.mp4"].map zipEntryName).Nodup := by
  exact ⟨by decide, by decide⟩

/-- C9 (amended): the code has no duplicate-name resolution policy: when
every download succeeds, the archive holds one entry per request, in order,
under exactly the sanitized requested name — so requests with equal
sanitized names produce archive entries with equal (colliding) names,
though no request is dropped. -/
theorem claim_C9_amended (files : List FileSpec) (options : Option JobOptions)
    (hne : files ≠ [])
    (hall : ∀ i f, files.get? i = some f →
      runRetries f.attempts 1 maxRetry = none) :
    ∃ ar, (createZip (some files) options).archive = some ar ∧
      ar.length = files.length ∧
      ∀ i f, files.get? i = some f →
        ar.get? i = some (ZipEntry.file (serverEntryName f.zip_path i)) := by
  have hspec := processFiles_all_success files 0 (effAllowPartial options) hall
  have hlen : ¬ files.length = 0 := by
    cases files with
    | nil => exact absurd rfl hne
    | cons a t => simp
  simp only [createZip, if_neg hlen, hspec.1]
  refine ⟨_, rfl, hspec.2.2.1, fun i f hi => ?_⟩
  rw [hspec.2.2.2 i, hi]
  simp

/-- C9 witness: a two-file all-success job delivers two entries, each under
its sanitized requested name. -/
theorem claim_C9_witness :
    ∃ ar, (createZip (some [⟨some "a.mp4", fun _ => none⟩,
        ⟨some "b c.mp4", fun _ => none⟩]) none).archive = some ar ∧
      ar.length = 2 ∧
      ∀ i f, [(⟨some "a.mp4", fun _ => none⟩ : FileSpec),
          ⟨some "b c.mp4", fun _ => none⟩].get? i = some f →
        ar.get? i = some (ZipEntry.file (serverEntryName f.zip_path i)) :=
  claim_C9_amended
    [⟨some "a.mp4", fun _ => none⟩, ⟨some "b c.mp4", fun _ => none⟩] none
    (List.cons_ne_nil _ _)
    (by
      intro i f hi
      cases i with
      | zero =>
        cases hi
        rfl
      | succ j =>
        cases j with
        | zero =>
          cases hi
          rfl
        | succ k => cases hi)
